import Mathlib

/-!
# Verification of the RITA proxy-beacon analyzer

Shallow embedding of `src/pkg/beaconproxy/analyzer.go`: the distribution
statistics engine applied to each collected `uconnproxy.Input` (the body of
the worker loop in `analyzer.start`), the histogram helpers `createCountMap`
and `countAndRemoveConsecutiveDuplicates`, and the session lifecycle
(`collect` / `start` / `close`) as a small-step relation.

Machine integers (`int64`) are modelled as `ℤ` (no overflow occurs in the
quantities the claims are about).  IEEE-754 `float64` values are modelled
exactly: finite values as rationals, and the special values produced by
division by zero (`+Inf`, `-Inf`, `NaN`) as explicit constructors of
`EFloat`, with the IEEE propagation and comparison rules for them.
-/

/-- Exact model of the `float64` values flowing through the scoring
computation: finite values are kept as exact rationals, and the special
values produced by division by zero are tracked explicitly with the
IEEE-754 propagation rules. -/
inductive EFloat where
  | fin (q : ℚ)
  | inf
  | negInf
  | nan
deriving DecidableEq, Repr

/-- IEEE addition: `NaN` absorbs, opposite infinities give `NaN`. -/
def EFloat.add : EFloat → EFloat → EFloat
  | .nan, _ => .nan
  | _, .nan => .nan
  | .inf, .negInf => .nan
  | .negInf, .inf => .nan
  | .inf, _ => .inf
  | _, .inf => .inf
  | .negInf, _ => .negInf
  | _, .negInf => .negInf
  | .fin a, .fin b => .fin (a + b)

/-- IEEE multiplication: `NaN` absorbs, `0 * Inf = NaN`, signs multiply. -/
def EFloat.mul : EFloat → EFloat → EFloat
  | .nan, _ => .nan
  | _, .nan => .nan
  | .fin a, .fin b => .fin (a * b)
  | .fin a, .inf => if 0 < a then .inf else if a < 0 then .negInf else .nan
  | .inf, .fin b => if 0 < b then .inf else if b < 0 then .negInf else .nan
  | .fin a, .negInf => if 0 < a then .negInf else if a < 0 then .inf else .nan
  | .negInf, .fin b => if 0 < b then .negInf else if b < 0 then .inf else .nan
  | .inf, .inf => .inf
  | .negInf, .negInf => .inf
  | .inf, .negInf => .negInf
  | .negInf, .inf => .negInf

/-- IEEE division: `NaN` absorbs; a positive finite value divided by zero is
`+Inf`, a negative one `-Inf`, and `0/0` is `NaN` (the zero denominators
reached in the analyzer arise as `x - x` and are positive zeros). -/
def EFloat.div : EFloat → EFloat → EFloat
  | .nan, _ => .nan
  | _, .nan => .nan
  | .fin a, .fin b =>
    if b = 0 then (if 0 < a then .inf else if a < 0 then .negInf else .nan)
    else .fin (a / b)
  | .fin _, .inf => .fin 0
  | .fin _, .negInf => .fin 0
  | .inf, .fin b => if b < 0 then .negInf else .inf
  | .negInf, .fin b => if b < 0 then .inf else .negInf
  | .inf, _ => .nan
  | .negInf, _ => .nan

/-- IEEE `math.Ceil`: ceiling on finite values, identity on specials. -/
def EFloat.ceil : EFloat → EFloat
  | .fin q => .fin ((⌈q⌉ : ℤ) : ℚ)
  | .inf => .inf
  | .negInf => .negInf
  | .nan => .nan

/-- IEEE strict greater-than as used by Go's `>` on `float64`: any
comparison with `NaN` is false. -/
def EFloat.gtB : EFloat → EFloat → Bool
  | .nan, _ => false
  | _, .nan => false
  | .fin a, .fin b => decide (b < a)
  | .inf, .inf => false
  | .inf, _ => true
  | _, .inf => false
  | .negInf, _ => false
  | .fin _, .negInf => true

namespace Util

/-- Modelled from the spec: `util.Round` (outside `src/`) rounds a float to
the nearest integer, half up — `round(q * (m-1)) using
round-half-up-to-nearest-integer`. -/
def Round (f : ℚ) : ℤ := ⌊f + 1 / 2⌋

/-- Modelled from the spec: `util.Abs` (outside `src/`) is the absolute
value on `int64` — `abs(diff[i] - mid)`. -/
def Abs (a : ℤ) : ℤ := |a|

/-- Modelled from the spec: `sort.Sort(util.SortableInt64(...))` (the
comparator lives outside `src/`) sorts an `int64` slice ascending; on
integers any sorting algorithm produces this same list. -/
def sortInt64 (l : List ℤ) : List ℤ := l.insertionSort (· ≤ ·)

end Util

/-- The delta loop in `analyzer.start`: `diffFull[i] = TsList[i+1] - TsList[i]`
for `i < len(TsList) - 1`. -/
def deltas : List ℤ → List ℤ
  | [] => []
  | [_] => []
  | a :: b :: t => (b - a) :: deltas (b :: t)

/-- Inner loop of `countAndRemoveConsecutiveDuplicates`: starting from the
already-emitted value `last`, append each element that differs from its
predecessor. -/
def dedupConsecGo : ℤ → List ℤ → List ℤ
  | _, [] => []
  | last, y :: t => if last ≠ y then y :: dedupConsecGo y t else dedupConsecGo y t

/-- The `result` slice of `countAndRemoveConsecutiveDuplicates`: the first
element, then every element that differs from its predecessor. -/
def dedupConsec : List ℤ → List ℤ
  | [] => []
  | x :: t => x :: dedupConsecGo x t

/-- `countAndRemoveConsecutiveDuplicates`: the consecutive-dedup slice and
the `counts` map.  The loop increments `counts[v]` exactly once per element
of the input equal to `v`, so the map sends each value to its multiplicity
in the input.  Indexing `numberList[0]` on an empty slice panics, which the
`Option` models. -/
def countAndRemoveConsecutiveDuplicates (numberList : List ℤ) :
    Option (List ℤ × (ℤ → ℤ)) :=
  match numberList with
  | [] => none
  | _ :: _ => some (dedupConsec numberList, fun v => (numberList.count v : ℤ))

/-- `createCountMap`: distinct values, their counts, the mode and its count.
`mode` starts at `distinct[0]` and the loop replaces it only on a strictly
greater count. -/
def createCountMap (sortedIn : List ℤ) : Option (List ℤ × List ℤ × ℤ × ℤ) :=
  match countAndRemoveConsecutiveDuplicates sortedIn with
  | none => none
  | some (distinct, countsMap) =>
    let countsArr := distinct.map countsMap
    let mode0 := distinct.headD 0
    let r := distinct.foldl
      (fun mm datum => if countsMap datum > mm.2 then (datum, countsMap datum) else mm)
      (mode0, countsMap mode0)
    some (distinct, countsArr, r.1, r.2)

/-- Go slice indexing with an `int64` index: out-of-range (including
negative) panics, modelled as `none`. -/
def idxGet (l : List ℤ) (i : ℤ) : Option ℤ :=
  if h : 0 ≤ i ∧ i.toNat < l.length then some (l.get ⟨i.toNat, h.2⟩) else none

/-- All the local variables of one iteration of the worker loop in
`analyzer.start`, so that each intermediate quantity of the computation can
be referred to by name. -/
structure EngineVals where
  diffFull : List ℤ
  diff : List ℤ
  tsLow : ℤ
  tsMid : ℤ
  tsHigh : ℤ
  tsSkew : ℚ
  tsMadm : ℤ
  tsIntervalRange : ℤ
  intervals : List ℤ
  intervalCounts : List ℤ
  tsMode : ℤ
  tsModeCount : ℤ
  tsSkewScore : ℚ
  tsMadmScore : ℚ
  tsConnCountScore : EFloat
  tsSum : EFloat
  tsScore : EFloat
  score : EFloat
deriving DecidableEq, Repr

/-- The body of the worker loop in `analyzer.start` for one entry: deltas,
sort, zero-exclusion, quantiles, Bowley skew, MADM, range, histogram and
the three sub-scores combined into the composite score.  A panic (slice
index out of range, `make` with negative length on an empty `TsList`) is
modelled as `none`. -/
def engine (tsMin tsMax : ℤ) (tsList : List ℤ) (connectionCount : ℤ) :
    Option EngineVals :=
  match tsList with
  | [] => none
  | _ :: _ => do
    let diffFull := Util.sortInt64 (deltas tsList)
    let diffNonZeroIdx : ℕ :=
      if diffFull.any (fun x => decide (0 < x)) then
        diffFull.findIdx (fun x => decide (0 < x))
      else 0
    let diff := diffFull.drop diffNonZeroIdx
    let diffLength : ℤ := (diff.length : ℤ)
    let tsLow ← idxGet diff (Util.Round ((1 / 4 : ℚ) * ((diffLength - 1 : ℤ) : ℚ)))
    let tsMid ← idxGet diff (Util.Round ((1 / 2 : ℚ) * ((diffLength - 1 : ℤ) : ℚ)))
    let tsHigh ← idxGet diff (Util.Round ((3 / 4 : ℚ) * ((diffLength - 1 : ℤ) : ℚ)))
    let tsBowleyNum := tsLow + tsHigh - 2 * tsMid
    let tsBowleyDen := tsHigh - tsLow
    let tsSkew : ℚ :=
      if tsBowleyDen ≠ 0 ∧ tsMid ≠ tsLow ∧ tsMid ≠ tsHigh then
        (tsBowleyNum : ℚ) / (tsBowleyDen : ℚ)
      else 0
    let devs := Util.sortInt64 (diff.map (fun d => Util.Abs (d - tsMid)))
    let tsMadm ← idxGet devs (Util.Round ((1 / 2 : ℚ) * ((diffLength - 1 : ℤ) : ℚ)))
    let diffFirst ← idxGet diff 0
    let diffLast ← idxGet diff (diffLength - 1)
    let tsIntervalRange := diffLast - diffFirst
    let cm ← createCountMap diffFull
    let intervals := cm.1
    let intervalCounts := cm.2.1
    let tsMode := cm.2.2.1
    let tsModeCount := cm.2.2.2
    let tsSkewScore : ℚ := 1 - |tsSkew|
    let tsMadmScore0 : ℚ :=
      if tsMid ≥ 1 then 1 - (tsMadm : ℚ) / (tsMid : ℚ) else 1
    let tsMadmScore : ℚ := if tsMadmScore0 < 0 then 0 else tsMadmScore0
    let tsConnDiv : ℚ := ((tsMax : ℚ) - (tsMin : ℚ)) / 3600
    let connRaw := EFloat.div (.fin (connectionCount : ℚ)) (.fin tsConnDiv)
    let tsConnCountScore := if EFloat.gtB connRaw (.fin 1) then .fin 1 else connRaw
    let tsSum := EFloat.add (.fin (tsSkewScore + tsMadmScore)) tsConnCountScore
    let tsScore :=
      EFloat.div (EFloat.ceil (EFloat.mul (EFloat.div tsSum (.fin 3)) (.fin 1000))) (.fin 1000)
    let score :=
      EFloat.div (EFloat.ceil (EFloat.mul (EFloat.div tsSum (.fin 3)) (.fin 1000))) (.fin 1000)
    pure ⟨diffFull, diff, tsLow, tsMid, tsHigh, tsSkew, tsMadm, tsIntervalRange,
      intervals, intervalCounts, tsMode, tsModeCount, tsSkewScore, tsMadmScore,
      tsConnCountScore, tsSum, tsScore, score⟩

/-- One `uconnproxy.Input` record as the analyzer reads it: the timestamp
list, the connection count, and the attributes passed through verbatim. -/
structure Input where
  pairKey : String
  tsList : List ℤ
  connectionCount : ℤ
  proxy : String
  srcNetworkName : String
deriving DecidableEq, Repr

/-- The `$set` document of `proxyBeaconQuery`, field for field. -/
structure ScoreFields where
  connection_count : ℤ
  proxy : String
  src_network_name : String
  ts_range : ℤ
  ts_mode : ℤ
  ts_mode_count : ℤ
  ts_intervals : List ℤ
  ts_interval_counts : List ℤ
  ts_dispersion : ℤ
  ts_skew : ℚ
  ts_conns_score : EFloat
  ts_score : EFloat
  score : EFloat
  cid : ℤ
deriving DecidableEq, Repr

/-- The persistence instruction handed to `analyzedCallback` for one entry:
selector, update document and the upsert flag. -/
structure BulkChange where
  selector : String
  update : ScoreFields
  upsert : Bool
deriving DecidableEq, Repr

/-- Processing of one dequeued entry in `analyzer.start`: run the engine and
wrap the result into the upsert instruction delivered to the callback. -/
def analyzeEntry (tsMin tsMax chunk : ℤ) (entry : Input) : Option BulkChange :=
  (engine tsMin tsMax entry.tsList entry.connectionCount).map fun v =>
    { selector := entry.pairKey
      update :=
        { connection_count := entry.connectionCount
          proxy := entry.proxy
          src_network_name := entry.srcNetworkName
          ts_range := v.tsIntervalRange
          ts_mode := v.tsMode
          ts_mode_count := v.tsModeCount
          ts_intervals := v.intervals
          ts_interval_counts := v.intervalCounts
          ts_dispersion := v.tsMadm
          ts_skew := v.tsSkew
          ts_conns_score := v.tsConnCountScore
          ts_score := v.tsScore
          score := v.score
          cid := chunk }
      upsert := true }

/-- Concrete input of end-to-end scenario 1 of the spec. -/
def inp1 : Input := ⟨"pair1", [0, 10, 20, 30], 4, "proxy1", "net1"⟩

/-- Scenario-1 timestamps with a zero-width window and zero connections. -/
def inp2 : Input := ⟨"pair2", [0, 10, 20, 30], 0, "proxy2", "net2"⟩

/-- Scenario-1 timestamps with a zero-width window and positive connections. -/
def inp3 : Input := ⟨"pair3", [0, 10, 20, 30], 4, "proxy3", "net3"⟩

/-- Engine locals for scenario 1 (also for a zero-width window with
positive connection count, where the capped `+Inf` gives the same scores). -/
def ev1 : EngineVals :=
  ⟨[10, 10, 10], [10, 10, 10], 10, 10, 10, 0, 0, 0, [10], [3], 10, 3, 1, 1,
    .fin 1, .fin 3, .fin 1, .fin 1⟩

/-- Engine locals for the scenario-1 timestamps under a zero-width window
with zero connections: `0/0` is `NaN` and it propagates. -/
def ev2 : EngineVals :=
  ⟨[10, 10, 10], [10, 10, 10], 10, 10, 10, 0, 0, 0, [10], [3], 10, 3, 1, 1,
    .nan, .nan, .nan, .nan⟩

/-- Bulk change emitted for `inp1` under window `[0, 3600]`, chunk 0. -/
def bc1 : BulkChange :=
  ⟨"pair1", ⟨4, "proxy1", "net1", 0, 10, 3, [10], [3], 0, 0, .fin 1, .fin 1, .fin 1, 0⟩, true⟩

/-- Bulk change emitted for `inp2` under the zero-width window `[0, 0]`. -/
def bc2 : BulkChange :=
  ⟨"pair2", ⟨0, "proxy2", "net2", 0, 10, 3, [10], [3], 0, 0, .nan, .nan, .nan, 0⟩, true⟩

/-- Bulk change emitted for `inp3` under the zero-width window `[0, 0]`. -/
def bc3 : BulkChange :=
  ⟨"pair3", ⟨4, "proxy3", "net3", 0, 10, 3, [10], [3], 0, 0, .fin 1, .fin 1, .fin 1, 0⟩, true⟩

/-- Events observable at the session boundary: one `analyzedCallback`
invocation per processed entry, and the single `closedCallback`. -/
inductive Event where
  | analyzed (bc : BulkChange)
  | closed
deriving DecidableEq, Repr

/-- State of one analysis session: the inputs the producers have not yet
handed to `collect`, the FIFO contents of `analysisChannel` (the unbuffered
channel holds at most one element; the proof does not depend on any bound),
whether the channel is closed, whether the worker goroutine has exited,
whether `close()` has returned (after invoking `closedCallback`), and the
events delivered to the callbacks so far. -/
structure SessState where
  toSend : List Input
  chan : List Input
  chanClosed : Bool
  workerDone : Bool
  closedDone : Bool
  events : List Event
deriving DecidableEq, Repr

/-- One interleaving step of a session: a producer send (`collect`), `close()`
closing the channel (only after all sends), the worker dequeuing and
processing one entry then invoking `analyzedCallback`, the worker's loop
exiting once the closed channel is drained (`analysisWg.Done`), and
`close()` returning from `analysisWg.Wait` and invoking `closedCallback`.
A worker panic (impossible on valid input) would leave the worker stuck
instead of producing an event. -/
inductive SessStep (tsMin tsMax chunk : ℤ) : SessState → SessState → Prop where
  | send (x : Input) (r : List Input) (s : SessState) :
      s.toSend = x :: r → s.chanClosed = false →
      SessStep tsMin tsMax chunk s
        { s with toSend := r, chan := s.chan ++ [x] }
  | closeChan (s : SessState) :
      s.toSend = [] → s.chanClosed = false →
      SessStep tsMin tsMax chunk s { s with chanClosed := true }
  | work (x : Input) (r : List Input) (bc : BulkChange) (s : SessState) :
      s.chan = x :: r → analyzeEntry tsMin tsMax chunk x = some bc →
      SessStep tsMin tsMax chunk s
        { s with chan := r, events := s.events ++ [Event.analyzed bc] }
  | exitWorker (s : SessState) :
      s.chan = [] → s.chanClosed = true → s.workerDone = false →
      SessStep tsMin tsMax chunk s { s with workerDone := true }
  | closeReturn (s : SessState) :
      s.workerDone = true → s.closedDone = false →
      SessStep tsMin tsMax chunk s
        { s with closedDone := true, events := s.events ++ [Event.closed] }

/-- Finitely many session steps. -/
inductive SessSteps (tsMin tsMax chunk : ℤ) : SessState → SessState → Prop where
  | refl (s : SessState) : SessSteps tsMin tsMax chunk s s
  | tail {s t u : SessState} : SessSteps tsMin tsMax chunk s t →
      SessStep tsMin tsMax chunk t u → SessSteps tsMin tsMax chunk s u

/-- A fresh session about to collect the given inputs in order. -/
def initState (inputs : List Input) : SessState := ⟨inputs, [], false, false, false, []⟩

/-- Invariant of a running session: some prefix of the inputs has been
processed into the event list, the rest sits in the channel or with the
producers, and the lifecycle flags only advance in order. -/
def SessInv (tsMin tsMax chunk : ℤ) (inputs : List Input) (s : SessState) : Prop :=
  ∃ processed, inputs = processed ++ s.chan ++ s.toSend ∧
    s.events = (processed.filterMap (analyzeEntry tsMin tsMax chunk)).map Event.analyzed ++
      (if s.closedDone then [Event.closed] else []) ∧
    (s.closedDone = true → s.workerDone = true) ∧
    (s.workerDone = true → s.chan = [] ∧ s.chanClosed = true) ∧
    (s.chanClosed = true → s.toSend = [])

theorem optBind_eq_some {α β : Type} {x : Option α} {f : α → Option β} {b : β} :
    (x >>= f = some b) ↔ ∃ a, x = some a ∧ f a = some b := Option.bind_eq_some

/-- Inversion of a successful engine run: every local of the loop body
satisfies its defining equation. -/
theorem engine_spec {tsMin tsMax c : ℤ} {tsList : List ℤ} {v : EngineVals}
    (h : engine tsMin tsMax tsList c = some v) :
    v.diffFull = Util.sortInt64 (deltas tsList) ∧
    v.diff = v.diffFull.drop
      (if v.diffFull.any (fun x => decide (0 < x)) then
        v.diffFull.findIdx (fun x => decide (0 < x)) else 0) ∧
    idxGet v.diff (Util.Round ((1/4 : ℚ) * ((((v.diff.length : ℤ) - 1 : ℤ)) : ℚ))) = some v.tsLow ∧
    idxGet v.diff (Util.Round ((1/2 : ℚ) * ((((v.diff.length : ℤ) - 1 : ℤ)) : ℚ))) = some v.tsMid ∧
    idxGet v.diff (Util.Round ((3/4 : ℚ) * ((((v.diff.length : ℤ) - 1 : ℤ)) : ℚ))) = some v.tsHigh ∧
    v.tsSkew = (if v.tsHigh - v.tsLow ≠ 0 ∧ v.tsMid ≠ v.tsLow ∧ v.tsMid ≠ v.tsHigh then
      ((v.tsLow + v.tsHigh - 2 * v.tsMid : ℤ) : ℚ) / ((v.tsHigh - v.tsLow : ℤ) : ℚ) else 0) ∧
    idxGet (Util.sortInt64 (v.diff.map (fun d => Util.Abs (d - v.tsMid))))
      (Util.Round ((1/2 : ℚ) * ((((v.diff.length : ℤ) - 1 : ℤ)) : ℚ))) = some v.tsMadm ∧
    (∃ diffFirst diffLast, idxGet v.diff 0 = some diffFirst ∧
      idxGet v.diff ((v.diff.length : ℤ) - 1) = some diffLast ∧
      v.tsIntervalRange = diffLast - diffFirst) ∧
    createCountMap v.diffFull = some (v.intervals, v.intervalCounts, v.tsMode, v.tsModeCount) ∧
    v.tsSkewScore = 1 - |v.tsSkew| ∧
    v.tsMadmScore = (if (if v.tsMid ≥ 1 then 1 - (v.tsMadm : ℚ) / (v.tsMid : ℚ) else 1) < 0 then 0
      else (if v.tsMid ≥ 1 then 1 - (v.tsMadm : ℚ) / (v.tsMid : ℚ) else 1)) ∧
    v.tsConnCountScore = (if EFloat.gtB (EFloat.div (.fin (c : ℚ)) (.fin (((tsMax : ℚ) - (tsMin : ℚ)) / 3600))) (.fin 1)
      then .fin 1 else EFloat.div (.fin (c : ℚ)) (.fin (((tsMax : ℚ) - (tsMin : ℚ)) / 3600))) ∧
    v.tsSum = EFloat.add (.fin (v.tsSkewScore + v.tsMadmScore)) v.tsConnCountScore ∧
    v.tsScore = EFloat.div (EFloat.ceil (EFloat.mul (EFloat.div v.tsSum (.fin 3)) (.fin 1000))) (.fin 1000) ∧
    v.score = v.tsScore := by
  cases tsList with
  | nil => simp [engine] at h
  | cons a t =>
    simp only [engine, optBind_eq_some, Option.pure_def, Option.some.injEq] at h
    obtain ⟨tsLow, hLow, tsMid, hMid, tsHigh, hHigh, tsMadm, hMadm, diffFirst, hFirst,
      diffLast, hLast, cm, hcm, hv⟩ := h
    subst hv
    refine ⟨rfl, rfl, hLow, hMid, hHigh, rfl, hMadm,
      ⟨diffFirst, diffLast, hFirst, hLast, rfl⟩, ?_, rfl, rfl, rfl, rfl, rfl, rfl⟩
    simpa using hcm

/-- Inversion of `analyzeEntry`: the emitted bulk change copies the engine
locals and the pass-through attributes field for field. -/
theorem analyzeEntry_spec {tsMin tsMax chunk : ℤ} {e : Input} {bc : BulkChange}
    (h : analyzeEntry tsMin tsMax chunk e = some bc) :
    ∃ v, engine tsMin tsMax e.tsList e.connectionCount = some v ∧
      bc = ⟨e.pairKey, ⟨e.connectionCount, e.proxy, e.srcNetworkName, v.tsIntervalRange,
        v.tsMode, v.tsModeCount, v.intervals, v.intervalCounts, v.tsMadm, v.tsSkew,
        v.tsConnCountScore, v.tsScore, v.score, chunk⟩, true⟩ := by
  simp only [analyzeEntry, Option.map_eq_some'] at h
  obtain ⟨v, hv, hbc⟩ := h
  exact ⟨v, hv, hbc.symm⟩

/-- Evaluation of the engine on scenario 1 of the spec. -/
theorem engineEval1 : engine 0 3600 [0, 10, 20, 30] 4 = some ev1 := by
  norm_num [engine, ev1, deltas, Util.sortInt64, List.insertionSort, List.orderedInsert,
    Util.Round, Util.Abs, idxGet, createCountMap, countAndRemoveConsecutiveDuplicates,
    dedupConsec, dedupConsecGo, List.findIdx, List.findIdx.go, EFloat.div, EFloat.gtB,
    EFloat.add, EFloat.mul, EFloat.ceil, Option.bind, List.count, List.countP,
    List.countP.go]
  decide

/-- Evaluation of the engine on the scenario-1 timestamps with a zero-width
window and zero connections: the `NaN` run. -/
theorem engineEval2 : engine 0 0 [0, 10, 20, 30] 0 = some ev2 := by
  norm_num [engine, ev2, deltas, Util.sortInt64, List.insertionSort, List.orderedInsert,
    Util.Round, Util.Abs, idxGet, createCountMap, countAndRemoveConsecutiveDuplicates,
    dedupConsec, dedupConsecGo, List.findIdx, List.findIdx.go, EFloat.div, EFloat.gtB,
    EFloat.add, EFloat.mul, EFloat.ceil, Option.bind, List.count, List.countP,
    List.countP.go]
  decide

/-- Evaluation of the engine on the scenario-1 timestamps with a zero-width
window and positive connections: `+Inf` is capped to 1. -/
theorem engineEval3 : engine 0 0 [0, 10, 20, 30] 4 = some ev1 := by
  norm_num [engine, ev1, deltas, Util.sortInt64, List.insertionSort, List.orderedInsert,
    Util.Round, Util.Abs, idxGet, createCountMap, countAndRemoveConsecutiveDuplicates,
    dedupConsec, dedupConsecGo, List.findIdx, List.findIdx.go, EFloat.div, EFloat.gtB,
    EFloat.add, EFloat.mul, EFloat.ceil, Option.bind, List.count, List.countP,
    List.countP.go]
  decide

/-- The bulk change produced for `inp1` under window `[0, 3600]`. -/
theorem analyzeEval1 : analyzeEntry 0 3600 0 inp1 = some bc1 := by
  simp only [analyzeEntry, inp1]
  rw [engineEval1]
  rfl

/-- The bulk change produced for `inp2` under the zero-width window. -/
theorem analyzeEval2 : analyzeEntry 0 0 0 inp2 = some bc2 := by
  simp only [analyzeEntry, inp2]
  rw [engineEval2]
  rfl

/-- The bulk change produced for `inp3` under the zero-width window. -/
theorem analyzeEval3 : analyzeEntry 0 0 0 inp3 = some bc3 := by
  simp only [analyzeEntry, inp3]
  rw [engineEval3]
  rfl

/-- Claim C1: for every processed input, the emitted composite score equals
ceil(((skewScore + dispersionScore + connCountScore)/3) * 1000) / 1000, and
the emitted time-only sub-score `ts.score` equals the overall `score`. -/
theorem composite_score_formula_and_parity {tsMin tsMax chunk : ℤ} {e : Input}
    {bc : BulkChange} (h : analyzeEntry tsMin tsMax chunk e = some bc) :
    ∃ v, engine tsMin tsMax e.tsList e.connectionCount = some v ∧
      bc.update.score = EFloat.div (EFloat.ceil (EFloat.mul (EFloat.div
        (EFloat.add (.fin (v.tsSkewScore + v.tsMadmScore)) v.tsConnCountScore)
        (.fin 3)) (.fin 1000))) (.fin 1000) ∧
      bc.update.ts_score = bc.update.score := by
  obtain ⟨v, hv, hbc⟩ := analyzeEntry_spec h
  obtain ⟨-, -, -, -, -, -, -, -, -, -, -, -, hsum, hscore, hpar⟩ := engine_spec hv
  subst hbc
  exact ⟨v, hv, by rw [hpar, hscore, hsum], by rw [hpar]⟩

/-- Witness for C1 at scenario 1. -/
theorem composite_score_formula_and_parity_witness :
    analyzeEntry 0 3600 0 inp1 = some bc1 ∧ bc1.update.ts_score = bc1.update.score := by
  obtain ⟨v, -, -, hpar⟩ := composite_score_formula_and_parity analyzeEval1
  exact ⟨analyzeEval1, hpar⟩

/-- Claim C3: the skew equals (low + high - 2*mid)/(high - low) exactly when
high ≠ low, mid ≠ low and mid ≠ high, and equals 0 in every degenerate
case (no error is raised there: the engine still returns a value). -/
theorem bowley_skew_cases {tsMin tsMax c : ℤ} {tsList : List ℤ} {v : EngineVals}
    (h : engine tsMin tsMax tsList c = some v) :
    (v.tsHigh ≠ v.tsLow ∧ v.tsMid ≠ v.tsLow ∧ v.tsMid ≠ v.tsHigh →
      v.tsSkew = ((v.tsLow : ℚ) + (v.tsHigh : ℚ) - 2 * (v.tsMid : ℚ)) /
        ((v.tsHigh : ℚ) - (v.tsLow : ℚ))) ∧
    (¬(v.tsHigh ≠ v.tsLow ∧ v.tsMid ≠ v.tsLow ∧ v.tsMid ≠ v.tsHigh) →
      v.tsSkew = 0) := by
  obtain ⟨-, -, -, -, -, hskew, -⟩ := engine_spec h
  constructor
  · intro ⟨h1, h2, h3⟩
    rw [hskew, if_pos ⟨sub_ne_zero.mpr h1, h2, h3⟩]
    push_cast
    ring_nf
  · intro hdeg
    rw [hskew, if_neg]
    intro ⟨h1, h2, h3⟩
    exact hdeg ⟨fun he => h1 (by rw [he, sub_self]), h2, h3⟩

/-- Witness for C3 at scenario 1, where all three quartiles coincide. -/
theorem bowley_skew_cases_witness :
    engine 0 3600 [0, 10, 20, 30] 4 = some ev1 ∧ ev1.tsSkew = 0 := by
  refine ⟨engineEval1, (bowley_skew_cases engineEval1).2 ?_⟩
  decide

/-- Clamping below at zero, written as a conditional, is `max 0`. -/
theorem clamp_if_eq_max (x : ℚ) : (if x < 0 then (0 : ℚ) else x) = max 0 x := by
  rcases lt_or_le x 0 with hx | hx
  · rw [if_pos hx, max_eq_left hx.le]
  · rw [if_neg (not_lt.mpr hx), max_eq_right hx]

/-- Claim C4: the dispersion sub-score equals 1 - madm/mid when mid ≥ 1 and
1 when mid < 1, clamped below at 0 and not clamped above, where madm is the
median (q = 0.5 quantile index) of the sorted absolute deviations about the
median of `diff`. -/
theorem dispersion_score_spec {tsMin tsMax c : ℤ} {tsList : List ℤ} {v : EngineVals}
    (h : engine tsMin tsMax tsList c = some v) :
    v.tsMadmScore = (if 1 ≤ v.tsMid then max 0 (1 - (v.tsMadm : ℚ) / (v.tsMid : ℚ)) else 1) ∧
    idxGet (Util.sortInt64 (v.diff.map (fun d => |d - v.tsMid|)))
      (Util.Round ((1/2 : ℚ) * ((((v.diff.length : ℤ) - 1 : ℤ)) : ℚ))) = some v.tsMadm := by
  obtain ⟨-, -, -, -, -, -, hmadm, -, -, -, hms, -⟩ := engine_spec h
  constructor
  · rw [hms, clamp_if_eq_max]
    rcases le_or_lt 1 v.tsMid with hmid | hmid
    · rw [if_pos (show v.tsMid ≥ 1 from hmid), if_pos hmid]
    · rw [if_neg (show ¬ v.tsMid ≥ 1 from not_le.mpr hmid), if_neg (not_le.mpr hmid)]
      exact max_eq_right zero_le_one
  · simpa [Util.Abs] using hmadm

/-- Witness for C4 at scenario 1: madm = 0, mid = 10, so the score is 1. -/
theorem dispersion_score_spec_witness :
    engine 0 3600 [0, 10, 20, 30] 4 = some ev1 ∧ ev1.tsMadmScore = 1 := by
  refine ⟨engineEval1, ?_⟩
  rw [(dispersion_score_spec engineEval1).1]
  norm_num [ev1]

/-- Claim C5: for a non-negative connection count and a strictly positive
window width, the connection-count sub-score is
min(1, connectionCount / ((tsMax - tsMin)/3600)) and lies in [0, 1]. -/
theorem conn_count_score_bounds {tsMin tsMax c : ℤ} {tsList : List ℤ} {v : EngineVals}
    (h : engine tsMin tsMax tsList c = some v) (hc : 0 ≤ c) (hw : tsMin < tsMax) :
    v.tsConnCountScore = .fin (min 1 ((c : ℚ) / (((tsMax : ℚ) - (tsMin : ℚ)) / 3600))) ∧
    0 ≤ min 1 ((c : ℚ) / (((tsMax : ℚ) - (tsMin : ℚ)) / 3600)) ∧
    min 1 ((c : ℚ) / (((tsMax : ℚ) - (tsMin : ℚ)) / 3600)) ≤ 1 := by
  obtain ⟨-, -, -, -, -, -, -, -, -, -, -, hconn, -⟩ := engine_spec h
  have hden : (0 : ℚ) < ((tsMax : ℚ) - (tsMin : ℚ)) / 3600 :=
    div_pos (sub_pos.mpr (by exact_mod_cast hw)) (by norm_num)
  have hx : (0 : ℚ) ≤ (c : ℚ) / (((tsMax : ℚ) - (tsMin : ℚ)) / 3600) :=
    div_nonneg (by exact_mod_cast hc) hden.le
  have hdiv : EFloat.div (.fin (c : ℚ)) (.fin (((tsMax : ℚ) - (tsMin : ℚ)) / 3600)) =
      .fin ((c : ℚ) / (((tsMax : ℚ) - (tsMin : ℚ)) / 3600)) := by
    rw [EFloat.div, if_neg hden.ne']
  refine ⟨?_, le_min (by norm_num) hx, min_le_left _ _⟩
  rw [hconn, hdiv]
  rcases lt_or_le 1 ((c : ℚ) / (((tsMax : ℚ) - (tsMin : ℚ)) / 3600)) with hgt | hle
  · rw [if_pos (by simpa [EFloat.gtB] using hgt), min_eq_left hgt.le]
  · rw [if_neg (by simpa [EFloat.gtB] using not_lt.mpr hle), min_eq_right hle]

/-- Witness for C5 at scenario 1: four connections in a one-hour window. -/
theorem conn_count_score_bounds_witness :
    engine 0 3600 [0, 10, 20, 30] 4 = some ev1 ∧
    ev1.tsConnCountScore = .fin (min 1 ((4 : ℚ) / ((((3600 : ℤ) : ℚ) - ((0 : ℤ) : ℚ)) / 3600))) := by
  exact ⟨engineEval1, (conn_count_score_bounds engineEval1 (by norm_num) (by norm_num)).1⟩

/-- Claim C7: end-to-end scenario 1: timestamps [0,10,20,30], window
[0, 3600], 4 connections give deltas [10,10,10], diff [10,10,10], zero
skew, skew score 1, madm 0, dispersion score 1, connection score 1 and
composite score exactly 1. -/
theorem end_to_end_scenario1 :
    (engine 0 3600 [0, 10, 20, 30] 4).map (fun v =>
      (v.diffFull, v.diff, v.tsSkew, v.tsSkewScore, v.tsMadm, v.tsMadmScore,
        v.tsConnCountScore, v.score)) =
    some ([10, 10, 10], [10, 10, 10], 0, 1, 0, 1, .fin 1, .fin 1) := by
  rw [engineEval1]
  rfl

/-- Claim C9: the engine is deterministic: two runs on the same input under
the same session parameters produce identical emitted fields. -/
theorem engine_idempotent {tsMin tsMax chunk : ℤ} {e : Input} {r1 r2 : BulkChange}
    (h1 : analyzeEntry tsMin tsMax chunk e = some r1)
    (h2 : analyzeEntry tsMin tsMax chunk e = some r2) : r1 = r2 := by
  rw [h1] at h2
  exact Option.some.inj h2

/-- Witness for C9 at scenario 1. -/
theorem engine_idempotent_witness :
    analyzeEntry 0 3600 0 inp1 = some bc1 ∧ bc1 = bc1 :=
  ⟨analyzeEval1, engine_idempotent analyzeEval1 analyzeEval1⟩

/-- Claim C10: with a zero-width window, a positive connection count makes
the division yield +Inf, which the cap turns into a connection sub-score of
1; a zero connection count yields NaN, the cap does not fire, and NaN
propagates into the emitted connection sub-score, time score and composite
score. -/
theorem zero_width_window_policy {tsMin chunk : ℤ} {e : Input} {bc : BulkChange}
    (h : analyzeEntry tsMin tsMin chunk e = some bc) :
    (0 < e.connectionCount → bc.update.ts_conns_score = .fin 1) ∧
    (e.connectionCount = 0 → bc.update.ts_conns_score = .nan ∧
      bc.update.ts_score = .nan ∧ bc.update.score = .nan) := by
  obtain ⟨v, hv, hbc⟩ := analyzeEntry_spec h
  obtain ⟨-, -, -, -, -, -, -, -, -, -, -, hconn, hsum, hscore, hpar⟩ := engine_spec hv
  have hzero : ((tsMin : ℚ) - (tsMin : ℚ)) / 3600 = 0 := by rw [sub_self, zero_div]
  subst hbc
  constructor
  · intro hc
    have hcq : (0 : ℚ) < (e.connectionCount : ℚ) := by exact_mod_cast hc
    have hdivinf : EFloat.div (.fin (e.connectionCount : ℚ))
        (.fin (((tsMin : ℚ) - (tsMin : ℚ)) / 3600)) = .inf := by
      rw [hzero, EFloat.div, if_pos rfl, if_pos hcq]
    simp only [hconn, hdivinf, EFloat.gtB, if_true]
  · intro hc
    have hcq : (e.connectionCount : ℚ) = 0 := by exact_mod_cast hc
    have hdivnan : EFloat.div (.fin (e.connectionCount : ℚ))
        (.fin (((tsMin : ℚ) - (tsMin : ℚ)) / 3600)) = .nan := by
      rw [hzero, hcq, EFloat.div, if_pos rfl, if_neg (lt_irrefl 0), if_neg (lt_irrefl 0)]
    have hcs : v.tsConnCountScore = .nan := by
      rw [hconn, hdivnan]
      rfl
    have hsumnan : v.tsSum = .nan := by
      rw [hsum, hcs]
      rfl
    have hscnan : v.tsScore = .nan := by
      rw [hscore, hsumnan]
      rfl
    exact ⟨hcs, hscnan, by rw [hpar, hscnan]⟩

/-- Witness for C10: both branches at the concrete inputs `inp3`
(4 connections) and `inp2` (0 connections) under the window [0, 0]. -/
theorem zero_width_window_policy_witness :
    (analyzeEntry 0 0 0 inp3 = some bc3 ∧ bc3.update.ts_conns_score = .fin 1) ∧
    (analyzeEntry 0 0 0 inp2 = some bc2 ∧ bc2.update.score = .nan) :=
  ⟨⟨analyzeEval3, (zero_width_window_policy analyzeEval3).1 (by norm_num [inp3])⟩,
   ⟨analyzeEval2, ((zero_width_window_policy analyzeEval2).2 (by norm_num [inp2])).2.2⟩⟩

/-- The inner dedup loop only emits elements of its input. -/
theorem dedupConsecGo_sublist : ∀ (t : List ℤ) (last : ℤ), (dedupConsecGo last t).Sublist t
  | [], _ => List.Sublist.refl _
  | y :: t, last => by
    rw [dedupConsecGo]
    split
    · exact (dedupConsecGo_sublist t y).cons₂ y
    · exact (dedupConsecGo_sublist t y).cons y

/-- Membership in the dedup-loop output, together with the running `last`
element, is membership in the input. -/
theorem mem_dedupConsecGo (t : List ℤ) : ∀ last x : ℤ,
    (x ∈ last :: dedupConsecGo last t ↔ x ∈ last :: t) := by
  induction t with
  | nil => intro last x; exact Iff.rfl
  | cons y t ih =>
    intro last x
    rw [dedupConsecGo]
    by_cases h : last = y
    · rw [if_neg (fun hne => hne h)]
      subst h
      have := ih last x
      simp only [List.mem_cons] at this ⊢
      tauto
    · rw [if_pos h]
      have := ih y x
      simp only [List.mem_cons] at this ⊢
      tauto

/-- On a weakly sorted input the dedup loop, seeded with a lower bound of
the input, produces a strictly sorted list. -/
theorem dedupConsecGo_pairwise (t : List ℤ) : ∀ last : ℤ, t.Pairwise (· ≤ ·) →
    (∀ y ∈ t, last ≤ y) → (last :: dedupConsecGo last t).Pairwise (· < ·) := by
  induction t with
  | nil => intro last _ _; exact List.pairwise_singleton _ _
  | cons y t ih =>
    intro last hp hall
    obtain ⟨hy, ht⟩ := List.pairwise_cons.mp hp
    rw [dedupConsecGo]
    by_cases h : last = y
    · rw [if_neg (fun hne => hne h)]
      subst h
      exact ih last ht hy
    · rw [if_pos h]
      have hlt : last < y := lt_of_le_of_ne (hall y (List.mem_cons_self y t)) h
      refine List.pairwise_cons.mpr ⟨?_, ih y ht hy⟩
      intro z hz
      rcases List.mem_cons.mp hz with rfl | hz'
      · exact hlt
      · exact hlt.trans_le (hy z ((dedupConsecGo_sublist t y).subset hz'))

/-- `dedupConsec` preserves membership. -/
theorem mem_dedupConsec {l : List ℤ} {x : ℤ} : x ∈ dedupConsec l ↔ x ∈ l := by
  cases l with
  | nil => exact Iff.rfl
  | cons a t => exact mem_dedupConsecGo t a x

/-- On sorted input `dedupConsec` is strictly sorted. -/
theorem dedupConsec_pairwise {l : List ℤ} (hs : l.Pairwise (· ≤ ·)) :
    (dedupConsec l).Pairwise (· < ·) := by
  cases l with
  | nil => exact List.Pairwise.nil
  | cons a t =>
    obtain ⟨ha, ht⟩ := List.pairwise_cons.mp hs
    exact dedupConsecGo_pairwise t a ht ha

/-- On sorted input `dedupConsec` has no duplicates. -/
theorem dedupConsec_nodup {l : List ℤ} (hs : l.Pairwise (· ≤ ·)) :
    (dedupConsec l).Nodup :=
  (dedupConsec_pairwise hs).imp ne_of_lt

/-- Summing the multiplicities of the distinct values of a sorted list
recovers its length. -/
theorem sum_counts_dedupConsec {l : List ℤ} (hs : l.Pairwise (· ≤ ·)) :
    ((dedupConsec l).map (fun v => (l.count v : ℤ))).sum = (l.length : ℤ) := by
  have hnd : (dedupConsec l).Nodup := dedupConsec_nodup hs
  have hfs : (dedupConsec l).toFinset = l.toFinset := by
    ext x
    simp [List.mem_toFinset, mem_dedupConsec]
  calc ((dedupConsec l).map (fun v => (l.count v : ℤ))).sum
      = (dedupConsec l).toFinset.sum (fun v => (l.count v : ℤ)) :=
        (List.sum_toFinset _ hnd).symm
    _ = l.toFinset.sum (fun v => (l.count v : ℤ)) := by rw [hfs]
    _ = ((l.toFinset.sum fun v => l.count v : ℕ) : ℤ) := by rw [Nat.cast_sum]
    _ = (l.length : ℤ) := by rw [List.sum_toFinset_count_eq_length]

/-- The running-maximum fold of `createCountMap`: it returns a value paired
with its key figure, positioned in the scanned list so that everything
before it scores strictly less (a later equal value never replaces it) and
everything after it scores at most as much. -/
theorem foldl_mode (f : ℤ → ℤ) : ∀ (d : List ℤ) (m0 : ℤ),
    ∃ m pre post,
      d.foldl (fun mm datum => if f datum > mm.2 then (datum, f datum) else mm) (m0, f m0) =
        (m, f m) ∧
      m0 :: d = pre ++ m :: post ∧
      (∀ w ∈ pre, f w < f m) ∧
      (∀ w ∈ post, f w ≤ f m) := by
  intro d
  induction d with
  | nil =>
    intro m0
    exact ⟨m0, [], [], rfl, rfl, by simp, by simp⟩
  | cons x d ih =>
    intro m0
    rw [List.foldl_cons]
    by_cases hgt : f x > f m0
    · rw [if_pos hgt]
      obtain ⟨m, pre, post, hfold, hdec, hpre, hpost⟩ := ih x
      have hxm : f x ≤ f m := by
        cases pre with
        | nil =>
          injection hdec with h1 h2
          exact le_of_eq (congrArg f h1)
        | cons p pre' =>
          injection hdec with h1 h2
          exact h1 ▸ (hpre p (List.mem_cons_self p pre')).le
      refine ⟨m, m0 :: pre, post, hfold, ?_, ?_, hpost⟩
      · rw [List.cons_append]
        exact congrArg (m0 :: ·) hdec
      · intro w hw
        rcases List.mem_cons.mp hw with rfl | hw'
        · exact lt_of_lt_of_le hgt hxm
        · exact hpre w hw'
    · rw [if_neg hgt]
      obtain ⟨m, pre, post, hfold, hdec, hpre, hpost⟩ := ih m0
      cases pre with
      | nil =>
        injection hdec with h1 h2
        refine ⟨m, [], x :: d, hfold, ?_, by simp, ?_⟩
        · rw [List.nil_append, ← h1, h2]
        · intro w hw
          rcases List.mem_cons.mp hw with rfl | hw'
          · exact (not_lt.mp hgt).trans (le_of_eq (congrArg f h1))
          · exact hpost w (h2 ▸ hw')
      | cons p pre' =>
        injection hdec with h1 h2
        refine ⟨m, m0 :: x :: pre', post, hfold, ?_, ?_, hpost⟩
        · rw [List.cons_append, List.cons_append]
          exact congrArg (fun z => m0 :: x :: z) h2
        · intro w hw
          rcases List.mem_cons.mp hw with rfl | hw'
          · exact h1 ▸ hpre p (List.mem_cons_self p pre')
          · rcases List.mem_cons.mp hw' with rfl | hw''
            · exact lt_of_le_of_lt (not_lt.mp hgt) (h1 ▸ hpre p (List.mem_cons_self p pre'))
            · exact hpre w (List.mem_cons_of_mem p hw'')

/-- Claim C2: for every sorted full delta sequence (zeros included), the
per-distinct-value counts of `createCountMap` sum to the length of the
sequence, and the reported mode has the maximal count, with everything
scanned before it counting strictly less (so a later equal count never
replaces the running mode, and ties go to the first, smallest, distinct
value). -/
theorem count_map_histogram_spec {l intervals intervalCounts : List ℤ}
    {mode modeCount : ℤ} (hs : l.Sorted (· ≤ ·))
    (h : createCountMap l = some (intervals, intervalCounts, mode, modeCount)) :
    intervalCounts.sum = (l.length : ℤ) ∧
    mode ∈ intervals ∧
    modeCount = (l.count mode : ℤ) ∧
    (∀ w ∈ intervals, (l.count w : ℤ) ≤ modeCount) ∧
    ∃ pre post, intervals = pre ++ mode :: post ∧
      ∀ w ∈ pre, (l.count w : ℤ) < modeCount := by
  cases l with
  | nil => simp [createCountMap, countAndRemoveConsecutiveDuplicates] at h
  | cons a t =>
    obtain ⟨m, pre, post, hfold, hdec, hpre, hpost⟩ :=
      foldl_mode (fun v => ((a :: t).count v : ℤ)) (dedupConsec (a :: t))
        ((dedupConsec (a :: t)).headD 0)
    have hcc : createCountMap (a :: t) =
        some (dedupConsec (a :: t),
          (dedupConsec (a :: t)).map (fun v => ((a :: t).count v : ℤ)),
          m, ((a :: t).count m : ℤ)) := by
      simp only [createCountMap, countAndRemoveConsecutiveDuplicates]
      rw [hfold]
    rw [hcc] at h
    simp only [Option.some.injEq, Prod.mk.injEq] at h
    obtain ⟨hi, hc, hm, hmc⟩ := h
    have hheadmem : (dedupConsec (a :: t)).headD 0 ∈ dedupConsec (a :: t) := by
      rw [dedupConsec, List.headD_cons]
      exact List.mem_cons_self a (dedupConsecGo a t)
    have hmmem : m ∈ dedupConsec (a :: t) := by
      have : m ∈ pre ++ m :: post :=
        List.mem_append_right pre (List.mem_cons_self m post)
      rw [← hdec] at this
      rcases List.mem_cons.mp this with rfl | hmem
      · exact hheadmem
      · exact hmem
    refine ⟨?_, ?_, ?_, ?_, ?_⟩
    · rw [← hc, sum_counts_dedupConsec hs]
    · rw [← hi, ← hm]
      exact hmmem
    · rw [← hmc, ← hm]
    · intro w hw
      rw [← hmc]
      rw [← hi] at hw
      have hw' : w ∈ pre ++ m :: post := by
        rw [← hdec]
        exact List.mem_cons_of_mem _ hw
      rcases List.mem_append.mp hw' with hw'' | hw''
      · exact (hpre w hw'').le
      · rcases List.mem_cons.mp hw'' with rfl | hw'''
        · exact le_refl _
        · exact hpost w hw'''
    · rw [← hi, ← hm, ← hmc]
      cases pre with
      | nil =>
        refine ⟨[], dedupConsecGo a t, ?_, by simp⟩
        have hhead : (dedupConsec (a :: t)).headD 0 = a := by
          rw [dedupConsec, List.headD_cons]
        have hma : m = a := by
          have := hdec
          rw [List.nil_append] at this
          injection this with h1 h2
          rw [← h1, hhead]
        rw [List.nil_append, dedupConsec, hma]
      | cons p pre' =>
        have := hdec
        injection this with h1 h2
        refine ⟨pre', post, h2, ?_⟩
        intro w hw
        exact hpre w (List.mem_cons_of_mem p hw)

/-- Witness for C2 at scenario 2 of the spec (deltas [0,0,5,10,15]). -/
theorem count_map_histogram_spec_witness :
    createCountMap [0, 0, 5, 10, 15] = some ([0, 5, 10, 15], [2, 1, 1, 1], 0, 2) ∧
    ([2, 1, 1, 1] : List ℤ).sum = (([0, 0, 5, 10, 15] : List ℤ).length : ℤ) := by
  have h : createCountMap [0, 0, 5, 10, 15] = some ([0, 5, 10, 15], [2, 1, 1, 1], 0, 2) := by
    decide
  exact ⟨h, (count_map_histogram_spec (by decide) h).1⟩

/-- The delta sequence is one shorter than its timestamp list. -/
theorem length_deltas : ∀ l : List ℤ, (deltas l).length = l.length - 1
  | [] => rfl
  | [_] => rfl
  | a :: b :: t => by
    rw [deltas, List.length_cons, length_deltas (b :: t)]
    simp

/-- A sorted list with `k` distinct values has `k - 1` strictly positive
deltas: its dedup length is bounded by one plus that count. -/
theorem dedup_length_le : ∀ l : List ℤ, l.Pairwise (· ≤ ·) →
    l.dedup.length ≤ 1 + (deltas l).countP (fun x => decide (0 < x))
  | [] => by simp [deltas]
  | [a] => by simp [deltas]
  | a :: b :: t => fun hp => by
    have hab : a ≤ b := (List.pairwise_cons.mp hp).1 b (List.mem_cons_self b t)
    have hp' : (b :: t).Pairwise (· ≤ ·) := (List.pairwise_cons.mp hp).2
    have ih := dedup_length_le (b :: t) hp'
    rw [deltas]
    by_cases h : a = b
    · rw [List.dedup_cons_of_mem (by rw [h]; exact List.mem_cons_self b t)]
      rw [List.countP_cons]
      have hz : (decide (0 < b - a) : Bool) = false := by
        subst h
        simp
      have hone : (if (decide (0 < b - a) : Bool) = true then 1 else 0) = 0 := by
        rw [hz]
        simp
      rw [hone]
      omega
    · have hnotmem : a ∉ b :: t := by
        intro hmem
        rcases List.mem_cons.mp hmem with rfl | hmem'
        · exact h rfl
        · have hba : b ≤ a := (List.pairwise_cons.mp hp').1 a hmem'
          exact h (le_antisymm hab hba)
      rw [List.dedup_cons_of_not_mem hnotmem, List.length_cons, List.countP_cons]
      have hz : (decide (0 < b - a) : Bool) = true := by
        simp
        omega
      have hone : (if (decide (0 < b - a) : Bool) = true then 1 else 0) = 1 := by
        rw [hz]
        simp
      rw [hone]
      omega

/-- No element strictly before the first index found by `findIdx`
satisfies the predicate. -/
theorem countP_take_findIdx (p : ℤ → Bool) : ∀ l : List ℤ,
    (l.take (l.findIdx p)).countP p = 0
  | [] => by simp
  | x :: t => by
    rw [List.findIdx_cons]
    cases hx : p x with
    | true => simp
    | false =>
      simp only [cond_false]
      rw [List.take_succ_cons, List.countP_cons, countP_take_findIdx p t, hx]
      simp

/-- Quantile index selection stays in bounds: for `0 ≤ q ≤ 3/4` and a list
of length at least one, `Round (q * (m - 1))` is a valid index. -/
theorem round_quantile_index_lt {q : ℚ} (hq0 : 0 ≤ q) (hq1 : q ≤ 3/4) {m : ℕ}
    (hm : 1 ≤ m) :
    0 ≤ Util.Round (q * (((m : ℤ) - 1 : ℤ) : ℚ)) ∧
    (Util.Round (q * (((m : ℤ) - 1 : ℤ) : ℚ))).toNat < m := by
  have hm' : (1 : ℚ) ≤ (m : ℚ) := by exact_mod_cast hm
  have hmq : (((m : ℤ) - 1 : ℤ) : ℚ) = (m : ℚ) - 1 := by push_cast; ring
  have harg0 : 0 ≤ q * ((m : ℚ) - 1) := mul_nonneg hq0 (by linarith)
  have hub : q * ((m : ℚ) - 1) ≤ 3/4 * ((m : ℚ) - 1) :=
    mul_le_mul_of_nonneg_right hq1 (by linarith)
  have h0 : 0 ≤ Util.Round (q * (((m : ℤ) - 1 : ℤ) : ℚ)) := by
    rw [Util.Round]
    apply Int.le_floor.mpr
    rw [hmq]
    push_cast
    linarith
  have hlt : Util.Round (q * (((m : ℤ) - 1 : ℤ) : ℚ)) < (m : ℤ) := by
    rw [Util.Round]
    apply Int.floor_lt.mpr
    rw [hmq]
    push_cast
    linarith
  exact ⟨h0, by omega⟩

/-- A valid index makes `idxGet` succeed. -/
theorem idxGet_isSome {l : List ℤ} {i : ℤ} (h0 : 0 ≤ i) (hl : i.toNat < l.length) :
    ∃ y, idxGet l i = some y := by
  refine ⟨l.get ⟨i.toNat, hl⟩, ?_⟩
  rw [idxGet, dif_pos ⟨h0, hl⟩]

/-- `createCountMap` succeeds on any nonempty list. -/
theorem createCountMap_isSome {l : List ℤ} (h : l ≠ []) :
    ∃ z, createCountMap l = some z := by
  cases l with
  | nil => exact absurd rfl h
  | cons a t => exact ⟨_, rfl⟩

/-- Claim C6: for an ascending timestamp list with at least 3 distinct
values, the zero-excluded delta suffix has at least 2 elements, and the
whole scoring computation is total: every index used is in bounds and the
engine returns a result. -/
theorem engine_total_on_valid_input (tsMin tsMax c : ℤ) {tsList : List ℤ}
    (hs : tsList.Sorted (· ≤ ·)) (hd : 3 ≤ tsList.dedup.length) :
    ∃ v, engine tsMin tsMax tsList c = some v ∧ 2 ≤ v.diff.length := by
  cases tsList with
  | nil => simp at hd
  | cons a t =>
    have hcount2 : 2 ≤ (deltas (a :: t)).countP (fun x => decide (0 < x)) := by
      have hb := dedup_length_le (a :: t) hs
      omega
    simp only [engine]
    set D := Util.sortInt64 (deltas (a :: t)) with hD
    have hDperm : D.countP (fun x => decide (0 < x)) =
        (deltas (a :: t)).countP (fun x => decide (0 < x)) := by
      rw [hD, Util.sortInt64]
      exact (List.perm_insertionSort _ _).countP_eq _
    have hcD : 2 ≤ D.countP (fun x => decide (0 < x)) := by
      rw [hDperm]
      exact hcount2
    have hany : D.any (fun x => decide (0 < x)) = true := by
      rw [List.any_eq_true]
      have hpos : 0 < D.countP (fun x => decide (0 < x)) := by omega
      exact List.countP_pos_iff.mp hpos
    rw [if_pos hany]
    set diff := D.drop (D.findIdx (fun x => decide (0 < x))) with hdiff
    have hdlen : 2 ≤ diff.length := by
      have h1 := List.take_append_drop (D.findIdx (fun x => decide (0 < x))) D
      have h2 : (D.take (D.findIdx (fun x => decide (0 < x)))).countP
          (fun x => decide (0 < x)) = 0 := countP_take_findIdx _ D
      have h3 : (D.drop (D.findIdx (fun x => decide (0 < x)))).countP
          (fun x => decide (0 < x)) ≤ diff.length := by
        rw [hdiff]
        exact List.countP_le_length _
      have h4 : D.countP (fun x => decide (0 < x)) =
          (D.take (D.findIdx (fun x => decide (0 < x)))).countP (fun x => decide (0 < x)) +
          (D.drop (D.findIdx (fun x => decide (0 < x)))).countP (fun x => decide (0 < x)) := by
        rw [← List.countP_append, h1]
      omega
    have hm1 : 1 ≤ diff.length := by omega
    obtain ⟨i1nn, i1lt⟩ := round_quantile_index_lt (q := 1/4) (by norm_num) (by norm_num) hm1
    obtain ⟨i2nn, i2lt⟩ := round_quantile_index_lt (q := 1/2) (by norm_num) (by norm_num) hm1
    obtain ⟨i3nn, i3lt⟩ := round_quantile_index_lt (q := 3/4) (by norm_num) (by norm_num) hm1
    obtain ⟨w1, hw1⟩ := idxGet_isSome (l := diff) i1nn i1lt
    obtain ⟨w2, hw2⟩ := idxGet_isSome (l := diff) i2nn i2lt
    obtain ⟨w3, hw3⟩ := idxGet_isSome (l := diff) i3nn i3lt
    have hdevlen : (Util.sortInt64 (diff.map (fun d => Util.Abs (d - w2)))).length =
        diff.length := by
      rw [Util.sortInt64, List.length_insertionSort, List.length_map]
    obtain ⟨w4, hw4⟩ := idxGet_isSome
      (l := Util.sortInt64 (diff.map (fun d => Util.Abs (d - w2)))) i2nn
      (by rw [hdevlen]; exact i2lt)
    obtain ⟨w5, hw5⟩ := idxGet_isSome (l := diff) (i := 0) le_rfl
      (by simp only [Int.toNat_zero]; omega)
    obtain ⟨w6, hw6⟩ := idxGet_isSome (l := diff) (i := (diff.length : ℤ) - 1)
      (by omega) (by omega)
    have hDne : D ≠ [] := by
      intro hnil
      rw [hnil] at hcD
      simp at hcD
    obtain ⟨z, hcmz⟩ := createCountMap_isSome hDne
    rw [hw1, hw2, hw3, hw5, hw6, hcmz]
    simp only [Option.bind_eq_bind, Option.some_bind]
    rw [hw4]
    simp only [Option.bind_eq_bind, Option.some_bind]
    exact ⟨_, rfl, hdlen⟩

/-- The session invariant holds initially. -/
theorem sessInv_init (tsMin tsMax chunk : ℤ) (inputs : List Input) :
    SessInv tsMin tsMax chunk inputs (initState inputs) := by
  refine ⟨[], by simp [initState], by simp [initState], ?_, ?_, ?_⟩ <;>
    simp [initState]

/-- Every session step preserves the invariant. -/
theorem sessInv_step {tsMin tsMax chunk : ℤ} {inputs : List Input} {s t : SessState}
    (hstep : SessStep tsMin tsMax chunk s t)
    (hinv : SessInv tsMin tsMax chunk inputs s) :
    SessInv tsMin tsMax chunk inputs t := by
  obtain ⟨processed, hin, hev, hcd, hwd, hcc⟩ := hinv
  cases hstep with
  | send x r s hx hcl =>
    refine ⟨processed, ?_, hev, hcd, ?_, ?_⟩
    · rw [hin, hx]
      simp
    · intro hw
      obtain ⟨-, hcc'⟩ := hwd hw
      rw [hcc hcc'] at hx
      exact absurd hx (List.noConfusion)
    · intro hc
      exact absurd (hcl ▸ hc) (by simp)
  | closeChan s hx hcl =>
    exact ⟨processed, hin, hev, hcd, fun hw => ⟨(hwd hw).1, rfl⟩, fun _ => hx⟩
  | work x r bc s hx hbc =>
    have hncd : s.closedDone = false := by
      cases hcdv : s.closedDone with
      | false => rfl
      | true =>
        obtain ⟨hch, -⟩ := hwd (hcd hcdv)
        rw [hch] at hx
        exact absurd hx (List.noConfusion)
    have hnwd : s.workerDone = false := by
      cases hwdv : s.workerDone with
      | false => rfl
      | true =>
        obtain ⟨hch, -⟩ := hwd hwdv
        rw [hch] at hx
        exact absurd hx (List.noConfusion)
    refine ⟨processed ++ [x], ?_, ?_, ?_, ?_, hcc⟩
    · rw [hin, hx]
      simp
    · rw [hev, hncd]
      simp [List.filterMap_append, hbc]
    · intro hcdt
      exact absurd (hncd ▸ hcdt) (by simp)
    · intro hwdt
      exact absurd (hnwd ▸ hwdt) (by simp)
  | exitWorker s hx hcl hwdf =>
    exact ⟨processed, hin, hev, fun _ => rfl, fun _ => ⟨hx, hcl⟩, hcc⟩
  | closeReturn s hwdt hcdf =>
    refine ⟨processed, hin, ?_, fun _ => hwdt, hwd, hcc⟩
    rw [hev, hcdf]
    simp

/-- The invariant holds in every reachable state. -/
theorem sessInv_reachable {tsMin tsMax chunk : ℤ} {inputs : List Input} {s : SessState}
    (h : SessSteps tsMin tsMax chunk (initState inputs) s) :
    SessInv tsMin tsMax chunk inputs s := by
  induction h with
  | refl => exact sessInv_init tsMin tsMax chunk inputs
  | tail hsteps hstep ih => exact sessInv_step hstep ih

/-- Claim C8: in any session run (one `start`, any interleaving of `collect`
calls, one `close`) that has completed its `close()`, the callback trace is
exactly one `analyzedCallback` per enqueued item, in enqueue order, followed
by the single `closedCallback`; a session with no `collect` calls fires only
`closedCallback`. -/
theorem session_trace_spec {tsMin tsMax chunk : ℤ} {inputs : List Input} {s : SessState}
    (hall : ∀ i ∈ inputs, (analyzeEntry tsMin tsMax chunk i).isSome = true)
    (hreach : SessSteps tsMin tsMax chunk (initState inputs) s)
    (hclosed : s.closedDone = true) :
    s.events = (inputs.filterMap (analyzeEntry tsMin tsMax chunk)).map Event.analyzed
      ++ [Event.closed] ∧
    (inputs.filterMap (analyzeEntry tsMin tsMax chunk)).length = inputs.length := by
  obtain ⟨processed, hin, hev, hcd, hwd, hcc⟩ := sessInv_reachable hreach
  obtain ⟨hch, hccl⟩ := hwd (hcd hclosed)
  have hts : s.toSend = [] := hcc hccl
  have hpi : inputs = processed := by
    rw [hin, hch, hts]
    simp
  constructor
  · rw [hev, hclosed, hpi]
    simp
  · rw [List.filterMap_length_eq_length]
    exact hall

/-- Witness for C8: the empty session (scenario 3 of the spec) fires only
`closedCallback`. -/
theorem session_trace_spec_witness :
    (∀ i ∈ ([] : List Input), (analyzeEntry 0 0 0 i).isSome = true) ∧
    (⟨[], [], true, true, true, [Event.closed]⟩ : SessState).events =
      (([] : List Input).filterMap (analyzeEntry 0 0 0)).map Event.analyzed
        ++ [Event.closed] := by
  have h1 : SessStep 0 0 0 (initState []) ⟨[], [], true, false, false, []⟩ :=
    SessStep.closeChan _ rfl rfl
  have h2 : SessStep 0 0 0 ⟨[], [], true, false, false, []⟩
      ⟨[], [], true, true, false, []⟩ :=
    SessStep.exitWorker _ rfl rfl rfl
  have h3 : SessStep 0 0 0 ⟨[], [], true, true, false, []⟩
      ⟨[], [], true, true, true, [Event.closed]⟩ :=
    SessStep.closeReturn _ rfl rfl
  have hsteps : SessSteps 0 0 0 (initState [])
      ⟨[], [], true, true, true, [Event.closed]⟩ :=
    .tail (.tail (.tail (.refl _) h1) h2) h3
  exact ⟨by simp, (session_trace_spec (by simp) hsteps rfl).1⟩

/-- Witness for C6 at the sorted, 4-distinct-value scenario-1 input. -/
theorem engine_total_on_valid_input_witness :
    List.Sorted (· ≤ ·) ([0, 10, 20, 30] : List ℤ) ∧
    3 ≤ ([0, 10, 20, 30] : List ℤ).dedup.length ∧
    (engine 0 3600 [0, 10, 20, 30] 4).isSome = true := by
  refine ⟨by decide, by decide, ?_⟩
  obtain ⟨v, hv, -⟩ := engine_total_on_valid_input 0 3600 4
    (show List.Sorted (· ≤ ·) ([0, 10, 20, 30] : List ℤ) by decide) (by decide)
  rw [hv]
  rfl
